import Mathlib

/-!
Verification of the page-rendering layer of pydoctor
(`pydoctor/templatewriter/pages/__init__.py`).

The Python functions are shallowly embedded as executable Lean
definitions over a model of the documentable-object graph.  Upward
class-hierarchy walks (`nested_bases`, `unmasked_attrs`, `allbases`)
operate on `Cls`, whose `baseobjects` field mirrors the nullable
resolved-base references of the object model; downward walks
(`overriding_subclasses`) operate on `SubC`, whose `subclasses` field
mirrors the subclass back-references.  Rendered output fragments are
modelled as small inductive node types that record exactly the
information the source puts into the corresponding HTML tags.
-/

namespace Pydoctor

/-! ## Python list sorting

`sorted(xs, key=k)` sorts ascending by key.  It is modelled as an
insertion sort driven by a boolean `le` test on whole elements; the
claims never depend on the relative order of elements with equal keys.
Python compares strings lexicographically by code point, which
`charsLe` implements on the underlying character lists (Lean's own
`String.le` has the same semantics but does not reduce in the kernel).
-/

def charsLe : List Char → List Char → Bool
  | [], _ => true
  | _ :: _, [] => false
  | c :: cs, d :: ds =>
    if c.val < d.val then true
    else if d.val < c.val then false
    else charsLe cs ds

def strLe (a b : String) : Bool := charsLe a.data b.data

/-- Python `str.lower()` as a sort key, modelled on the character list. -/
def lowerKey (s : String) : List Char := s.data.map Char.toLower

def insertSorted {α : Type} (le : α → α → Bool) (x : α) : List α → List α
  | [] => [x]
  | y :: ys => if le y x then y :: insertSorted le x ys else x :: y :: ys

def sortedBy {α : Type} (le : α → α → Bool) : List α → List α
  | [] => []
  | x :: xs => insertSorted le x (sortedBy le xs)

/-! ## The object registry and `assembleList` (lines 338-361)

`system.allobjects` is a name-to-entity mapping; for `assembleList`
only the visibility of a registered entity matters.  A rendered list
item is either plain text (name not in the registry) or
`tags.code(epydoc2stan.taglink(obj, page_url))`, recorded as
`Node.codeLink name page_url`.
-/

structure SysObj where
  isVisible : Bool
deriving DecidableEq

structure System where
  allobjects : List (String × SysObj)
deriving DecidableEq

/-- `system.allobjects.get(name)` (Python dict lookup). -/
def getObj (sys : System) (name : String) : Option SysObj :=
  (sys.allobjects.find? (fun p => p.1 == name)).map (fun p => p.2)

/-- The filter applied to the name list in `assembleList`:
`o is None or o.isVisible`. -/
def keepName (sys : System) (name : String) : Bool :=
  match getObj sys name with
  | none => true
  | some o => o.isVisible

inductive Node where
  | text : String → Node
  | codeLink : String → String → Node
deriving DecidableEq

/-- The local helper `one(item)` of `assembleList`. -/
def one (sys : System) (page_url : String) (item : String) : Node :=
  if (getObj sys item).isSome then Node.codeLink item page_url else Node.text item

/-- The local helper `commasep(items)` of `assembleList`: append
`one(item)` and a comma separator for every item, then `del r[-1]`.
(The source never calls it on an empty list; `dropLast` of `[]` is
`[]` where Python would raise `IndexError`.) -/
def commasep (sys : System) (page_url : String) (items : List String) : List Node :=
  (items.flatMap (fun item => [one sys page_url item, Node.text ", "])).dropLast

/-- `assembleList(system, label, lst, idbase, page_url)` (lines 338-361).
Note that the `idbase` parameter is accepted but never used by the body. -/
def assembleList (sys : System) (label : String) (lst : List String)
    (idbase : String) (page_url : String) : Option (List Node) :=
  let lst2 := lst.filter (keepName sys)
  if lst2.isEmpty then none
  else some (Node.text label :: commasep sys page_url lst2)

/-! ## `format_decorators` (lines 15-26)

A decorator is either an `ast.Call` node, carrying the result of
`node2fullname(dec.func, obj)`, or any other expression node; in both
cases the stripped `astor.to_source` text is carried alongside.  The
generator yields `('@' + text, tags.br())` pairs; the constant `br` is
omitted from the model, which collects the yielded texts.
-/

inductive Dec where
  | call : Option String → String → Dec
  | other : String → Dec
deriving DecidableEq

def Dec.sourceText : Dec → String
  | .call _ s => s
  | .other s => s

/-- The `break` condition of `format_decorators`: an `ast.Call` whose
function resolves to one of the two twisted deprecation decorators. -/
def isDeprecatedDec : Dec → Bool
  | .call fn _ =>
      fn == some "twisted.python.deprecate.deprecated"
        || fn == some "twisted.python.deprecate.deprecatedProperty"
  | .other _ => false

/-- A `model.Function` / `model.Attribute` reduced to the field
`format_decorators` reads: its optional decorator list. -/
structure FuncOb where
  decorators : Option (List Dec)
deriving DecidableEq

def fdGo : List Dec → List String
  | [] => []
  | d :: ds =>
    if isDeprecatedDec d then []
    else ("@" ++ d.sourceText) :: fdGo ds

/-- `format_decorators(obj)`: iterate `obj.decorators or ()`, yielding
the decorator texts and breaking at the first deprecation decorator. -/
def format_decorators (obj : FuncOb) : List String :=
  fdGo (obj.decorators.getD [])

/-! ## `BaseElement.__init__` (lines 46-82)

The template-lookup service maps a filename to a template; the
`isinstance(template.renderable, ITemplateLoader)` test is modelled by
`renderable : Option L` (`some` when the renderable provides
`ITemplateLoader`).  The outcome records the `_loader` attribute (if it
was set) and the message of a raised `RuntimeError` (if one was
raised).  The source *constructs* a `RuntimeError` on each failure path
but never raises it, so every branch below returns normally.
-/

structure Template (L : Type) where
  renderable : Option L

structure InitOutcome (L : Type) where
  loader : Option L
  raisedMessage : Option String

/-- `BaseElement.__init__(system, template_lookup, loader)`.  `system`
is only stored, so it is omitted.  `filename` is the abstract property
(empty string models a falsy filename). -/
def BaseElement.init (L : Type) (filename : String)
    (template_lookup : Option (String → Template L)) (loader : Option L) :
    InitOutcome L :=
  match loader with
  | some l => ⟨some l, none⟩
  | none =>
    if filename ≠ "" then
      match template_lookup with
      | some get_template =>
        match (get_template filename).renderable with
        | some r => ⟨some r, none⟩
        | none =>
          -- `RuntimeError(...renderable property is not a ITemplateLoader provider.)`
          -- is constructed here but not raised.
          ⟨none, none⟩
      | none =>
        -- `RuntimeError(...no TemplateLookup object is passed...)`
        -- is constructed here but not raised.
        ⟨none, none⟩
    else
      -- `RuntimeError(...no ITemplateLoader object is passed...)`
      -- is constructed here but not raised.
      ⟨none, none⟩

/-! ## The class hierarchy, viewed upward (lines 319-335)

`Cls` carries the fields read by `nested_bases`, `unmasked_attrs` and
the `overrides` search: the class name, its `contents` mapping (an
ordered list of members, each with its name, full name and visibility),
and `baseobjects`, the ordered list of resolved base references where
`none` is an unresolved (external) base.
-/

structure Member where
  name : String
  fullName : String
  isVisible : Bool
deriving DecidableEq

inductive Cls where
  | mk : String → List Member → List (Option Cls) → Cls

def Cls.name : Cls → String
  | .mk n _ _ => n

def Cls.contents : Cls → List Member
  | .mk _ cts _ => cts

def Cls.baseobjects : Cls → List (Option Cls)
  | .mk _ _ bos => bos

/- `nested_bases(b)` (lines 319-326): start from the singleton chain
`(b,)` and, for every non-null base `b2` in order, append every chain of
`nested_bases(b2)` extended with `b`.  `nbAux` is the loop over
`b.baseobjects`. -/
mutual
def nested_bases : Cls → List (List Cls)
  | .mk n cts bos => [Cls.mk n cts bos] :: nbAux (Cls.mk n cts bos) bos
def nbAux (self : Cls) : List (Option Cls) → List (List Cls)
  | [] => []
  | none :: rest => nbAux self rest
  | some b2 :: rest => (nested_bases b2).map (fun l => l ++ [self]) ++ nbAux self rest
end

/-- `unmasked_attrs(baselist)` (lines 328-335): the visible members of
the chain root whose names are not declared by any later chain element.
(The source indexes `baselist[0]`, so it is never called on an empty
chain; the `[]` case is arbitrary.) -/
def unmasked_attrs : List Cls → List Member
  | [] => []
  | b :: rest =>
    let maybe_masking := rest.flatMap (fun c => c.contents.map Member.name)
    b.contents.filter (fun o => o.isVisible && !(maybe_masking.contains o.name))

/- Modelled from the spec: `model.Class.allbases` is not part of the
excerpt (only its caller `ClassPage.functionExtras` is).  The spec
describes the `overrides` search as visiting all transitive bases in
most-derived-first order, i.e. the class itself (when `include_self`),
then, for each resolvable base in declaration order, that base followed
by its own transitive bases. -/
mutual
def allbases : Bool → Cls → List Cls
  | include_self, .mk n cts bos =>
    (if include_self then [Cls.mk n cts bos] else []) ++ abAux bos
def abAux : List (Option Cls) → List Cls
  | [] => []
  | none :: rest => abAux rest
  | some b :: rest => allbases true b ++ abAux rest
end

/-- Python `data.name in b.contents` / `b.contents[data.name]`:
dictionary lookup of a member by name. -/
def findMember (c : Cls) (name : String) : Option Member :=
  c.contents.find? (fun m => m.name == name)

/-- The `overrides` loop of `ClassPage.functionExtras` (lines 462-468):
walk the ancestor list, skip ancestors that do not declare the member,
and stop at the first one that does. -/
def overridesOf (name : String) : List Cls → Option Member
  | [] => none
  | b :: rest =>
    match findMember b name with
    | some m => some m
    | none => overridesOf name rest

/-! Linear hierarchies (for claim C1): a class has no multiple
inheritance when every class in its ancestry has at most one resolvable
base.  `linearChain` is the spec-side linear ancestor sequence,
root-most ancestor first and ending at the class itself; it is
meaningful under `linearB`. -/

def allNone : List (Option Cls) → Bool
  | [] => true
  | none :: rest => allNone rest
  | some _ :: _ => false

mutual
def linearB : Cls → Bool
  | .mk _ _ bos => linearBAux bos
def linearBAux : List (Option Cls) → Bool
  | [] => true
  | none :: rest => linearBAux rest
  | some b :: rest => allNone rest && linearB b
end

mutual
def linearChain : Cls → List Cls
  | .mk n cts bos => linearChainAux (Cls.mk n cts bos) bos
def linearChainAux (self : Cls) : List (Option Cls) → List Cls
  | [] => [self]
  | none :: rest => linearChainAux self rest
  | some b :: _ => linearChain b ++ [self]
end

/-- The nonempty suffixes of a chain, shortest first: element `i` drops
all but the last `i+1` entries. -/
def chainSuffixes (l : List Cls) : List (List Cls) :=
  (List.range l.length).map (fun i => l.drop (l.length - 1 - i))

/-! ## The class hierarchy, viewed downward (lines 311-317)

`SubC` carries the fields read by `overriding_subclasses`: the full
name (used for sorting and for the rendered list), the member-name set
of `contents`, the visibility flag, and the subclass back-references.
-/

inductive SubC where
  | mk : String → List String → Bool → List SubC → SubC

def SubC.fullName : SubC → String
  | .mk fn _ _ _ => fn

def SubC.memberNames : SubC → List String
  | .mk _ ms _ _ => ms

def SubC.isVisible : SubC → Bool
  | .mk _ _ v _ => v

def SubC.subclasses : SubC → List SubC
  | .mk _ _ _ subs => subs

/- `overriding_subclasses(c, name, firstcall)` (lines 311-317): on a
non-first call a class declaring `name` yields itself (and its own
subtree is not explored further); otherwise the visible subclasses are
explored recursively.  `osAux` is the loop over `c.subclasses`. -/
mutual
def overriding_subclasses : SubC → String → Bool → List SubC
  | .mk fn ms v subs, name, firstcall =>
    if !firstcall && ms.contains name then [SubC.mk fn ms v subs]
    else osAux name subs
def osAux (name : String) : List SubC → List SubC
  | [] => []
  | sc :: rest =>
    (if sc.isVisible then overriding_subclasses sc name false else []) ++ osAux name rest
end

/-! ## `ClassPage.functionExtras` (lines 368-376 and 459-477)

`ClassPage.__init__` sets `self.overridenInCount = 0`; every call to
`functionExtras` during a render of that page threads this counter.  An
extra is either the `overrides` div, carrying the full name of the
overridden member and the page url of the taglink, or the
`overridden in` div, carrying the `assembleList` output placed in it.
Because the claims are about the `idbase` string computed at line 472,
`functionExtras` also returns that string (when one was assigned, i.e.
when `ocs` was non-empty) alongside the extras and the new counter.
-/

inductive Extra where
  | overridesLink : String → String → Extra
  | overriddenInDiv : List Node → Extra
deriving DecidableEq

/-- The `ClassPage` data `functionExtras` reads: the upward view of the
class (`self.ob.allbases`), the downward view (`self.ob` as the root of
`overriding_subclasses`), `self.ob.system` and `self.page_url`. -/
structure ClassOb where
  up : Cls
  down : SubC
  system : System
  page_url : String

/-- The sort key of `ocs`: `lambda o: o.fullName().lower()`. -/
def subLe (a b : SubC) : Bool := charsLe (lowerKey a.fullName) (lowerKey b.fullName)

/-- `ClassPage.functionExtras(data)` (lines 459-477) for a member named
`dataName`, with the current `overridenInCount`.  Returns the extras,
the assigned `idbase` (if any), and the updated counter. -/
def functionExtras (ob : ClassOb) (count : Nat) (dataName : String) :
    List Extra × Option String × Nat :=
  let r1 : List Extra :=
    match overridesOf dataName (allbases false ob.up) with
    | some m => [Extra.overridesLink m.fullName ob.page_url]
    | none => []
  let ocs := sortedBy subLe (overriding_subclasses ob.down dataName true)
  if ocs.isEmpty then (r1, none, count)
  else
    let count' := count + 1
    let idbase := "overridenIn" ++ toString count'
    match assembleList ob.system "overridden in " (ocs.map SubC.fullName) idbase ob.page_url with
    | some l => (r1 ++ [Extra.overriddenInDiv l], some idbase, count')
    | none => (r1, some idbase, count')

/-- One page render: `CommonPage.childlist` calls `functionExtras` once
per member, in encounter order, threading `self.overridenInCount`. -/
def runFunctionExtras (ob : ClassOb) : List String → Nat → List (List Extra × Option String)
  | [], _ => []
  | d :: ds, count =>
    match functionExtras ob count d with
    | (r, idb, count') => (r, idb) :: runFunctionExtras ob ds count'

/-- The extras of a full `ClassPage` render: `ClassPage.__init__`
initialises `overridenInCount` to 0 (line 376), so every page render
starts its own counter at zero. -/
def classPageExtras (ob : ClassOb) (memberNames : List String) :
    List (List Extra × Option String) :=
  runFunctionExtras ob memberNames 0

/-- The `idbase` strings assigned during one `ClassPage` render, in
encounter order. -/
def classPageIdbases (ob : ClassOb) (memberNames : List String) : List String :=
  (classPageExtras ob memberNames).filterMap (fun p => p.2)

/-- The descendants that the `overridden in` list of a class page in
fact contains, as an inductive specification: a subclass reachable from
`c` through a chain of visible subclasses none of which (except the
last) declares the member, where the last one does declare it.  A
visible overrider hides its own subtree, and an invisible intermediate
class cuts off its subtree. -/
inductive YieldsFrom (name : String) : SubC → SubC → Prop where
  | found : ∀ c d, d ∈ c.subclasses → d.isVisible = true → name ∈ d.memberNames →
      YieldsFrom name c d
  | step : ∀ c sc d, sc ∈ c.subclasses → sc.isVisible = true → name ∉ sc.memberNames →
      YieldsFrom name sc d → YieldsFrom name c d

/-! ## `PackagePage` (lines 286-308)

`PEntity` carries the fields read by `PackagePage.children` and
`PackagePage.packageInitTable`: name, full name, visibility,
`privacyClass.value`, and the contents mapping (needed one level deep,
for the members of the `__init__` module).
-/

inductive PEntity where
  | mk : String → String → Bool → Int → List PEntity → PEntity

def PEntity.name : PEntity → String
  | .mk n _ _ _ _ => n

def PEntity.fullName : PEntity → String
  | .mk _ fn _ _ _ => fn

def PEntity.isVisible : PEntity → Bool
  | .mk _ _ v _ _ => v

def PEntity.privacy : PEntity → Int
  | .mk _ _ _ p _ => p

def PEntity.contents : PEntity → List PEntity
  | .mk _ _ _ _ cts => cts

/-- The sort key of `PackagePage`:
`lambda o2: (-o2.privacyClass.value, o2.fullName())`, ascending. -/
def pkgLe (a b : PEntity) : Bool :=
  decide (b.privacy < a.privacy)
    || (a.privacy == b.privacy && strLe a.fullName b.fullName)

/-- `PackagePage.children` (lines 287-290): the visible contents other
than the synthetic `__init__` entry, sorted. -/
def PackagePage.children (ob : PEntity) : List PEntity :=
  sortedBy pkgLe (ob.contents.filter (fun o => (o.name != "__init__") && o.isVisible))

/-- `PackagePage.packageInitTable` (lines 292-303): look up the
`__init__` module (the source indexes `self.ob.contents['__init__']`
and would raise `KeyError` if it were absent; `none` models that case),
collect its visible members sorted, and return the explanatory label
with the table, or nothing when there are no visible members. -/
def PackagePage.packageInitTable (ob : PEntity) : Option (String × List PEntity) :=
  match ob.contents.find? (fun o => o.name == "__init__") with
  | none => none
  | some init =>
    let children := sortedBy pkgLe (init.contents.filter (fun o => o.isVisible))
    if children.isEmpty then none
    else some ("From the __init__.py module:", children)

/-! ## Concrete fixtures

The diamond hierarchy `D(B, C)`, `B(A)`, `C(A)` of claim C2 (upward
views `uA`..`uD`), the `Base`/`Derived` pair of claim C5 with its
deeper variant `Base`/`Derived`/`Derived2`, and a small package for
claim C8.
-/

def memAm : Member := ⟨"m", "A.m", true⟩

def memBm : Member := ⟨"m", "B.m", true⟩

def uA : Cls := .mk "A" [memAm] []

def uB : Cls := .mk "B" [memBm] [some uA]

def uC : Cls := .mk "C" [] [some uA]

def uD : Cls := .mk "D" [] [some uB, some uC]

def memBasem : Member := ⟨"m", "Base.m", true⟩

def memDerivedm : Member := ⟨"m", "Derived.m", true⟩

def upBase : Cls := .mk "Base" [memBasem] []

def upDerived : Cls := .mk "Derived" [memDerivedm] [some upBase]

def sDerived : SubC := .mk "Derived" ["m"] true []

def sBase : SubC := .mk "Base" ["m"] true [sDerived]

def dDerived2 : SubC := .mk "Derived2" ["m"] true []

def dDerived : SubC := .mk "Derived" ["m"] true [dDerived2]

def dBase : SubC := .mk "Base" ["m"] true [dDerived]

/-- The page object for rendering the page of `Base` (subclassed by
`Derived`, which overrides `m`). -/
def obBasePage : ClassOb := ⟨upBase, sBase, ⟨[]⟩, "Base.html"⟩

/-- The page object for rendering the page of `Derived`. -/
def obDerivedPage : ClassOb := ⟨upDerived, sDerived, ⟨[]⟩, "Derived.html"⟩

/-- The page object for rendering the page of `Base` in the deeper
hierarchy `Base` <- `Derived` <- `Derived2`, all visible, all
declaring `m`. -/
def obBaseDeepPage : ClassOb := ⟨upBase, dBase, ⟨[]⟩, "Base.html"⟩

def pkgInitMember : PEntity := .mk "x" "pkg.x" true 0 []

def pkgInit : PEntity := .mk "__init__" "pkg.__init__" true 0 [pkgInitMember]

def pkgModA : PEntity := .mk "a" "pkg.a" true 0 []

def pkgOb : PEntity := .mk "pkg" "pkg" true 0 [pkgInit, pkgModA]

/-- A registry whose only entry is registered but invisible. -/
def sysInvisX : System := ⟨[("x", ⟨false⟩)]⟩

/-- A registry in which `x`, `y`, `z` are registered and visible. -/
def sysXYZ : System := ⟨[("x", ⟨true⟩), ("y", ⟨true⟩), ("z", ⟨true⟩)]⟩

def decW1 : Dec := .other "foo"

def decW2 : Dec := .call (some "twisted.python.deprecate.deprecated") "deprecated(a)"

def decW3 : Dec := .other "bar"

/-- A decorator list with the deprecation decorator at index 1. -/
def decsW : List Dec := [decW1, decW2, decW3]

/-! ## Helper lemmas -/

theorem mem_insertSorted {α : Type} (le : α → α → Bool) (x a : α) :
    ∀ l : List α, a ∈ insertSorted le x l ↔ a = x ∨ a ∈ l := by
  intro l
  induction l with
  | nil => simp [insertSorted]
  | cons y ys ih =>
    simp only [insertSorted]
    split
    · simp only [List.mem_cons, ih]
      tauto
    · simp only [List.mem_cons]

theorem mem_sortedBy {α : Type} (le : α → α → Bool) (a : α) :
    ∀ l : List α, a ∈ sortedBy le l ↔ a ∈ l := by
  intro l
  induction l with
  | nil => simp [sortedBy]
  | cons x xs ih =>
    simp only [sortedBy, mem_insertSorted, List.mem_cons, ih]

theorem insertSorted_ne_nil {α : Type} (le : α → α → Bool) (x : α) (l : List α) :
    insertSorted le x l ≠ [] := by
  cases l with
  | nil => simp [insertSorted]
  | cons y ys =>
    simp only [insertSorted]
    split <;> simp

theorem sortedBy_isEmpty {α : Type} (le : α → α → Bool) :
    ∀ l : List α, (sortedBy le l).isEmpty = l.isEmpty := by
  intro l
  cases l with
  | nil => rfl
  | cons x xs =>
    rcases h : insertSorted le x (sortedBy le xs) with _ | ⟨a, as⟩
    · exact absurd h (insertSorted_ne_nil le x (sortedBy le xs))
    · simp [sortedBy, h]

theorem commasep_eq_intersperse (sys : System) (u : String) :
    ∀ l : List String,
      commasep sys u l = List.intersperse (Node.text ", ") (l.map (one sys u)) := by
  intro l
  induction l with
  | nil => rfl
  | cons x xs ih =>
    cases xs with
    | nil => rfl
    | cons y ys =>
      simp only [commasep, List.flatMap_cons] at ih ⊢
      have hne : ([one sys u y, Node.text ", "] ++
          ys.flatMap fun item => [one sys u item, Node.text ", "]) ≠ [] := by simp
      rw [List.dropLast_append_of_ne_nil _ hne, ih]
      simp [List.intersperse]

theorem fdGo_eq_takeWhile :
    ∀ ds : List Dec,
      fdGo ds = (ds.takeWhile (fun d => !isDeprecatedDec d)).map (fun d => "@" ++ d.sourceText) := by
  intro ds
  induction ds with
  | nil => rfl
  | cons d ds ih =>
    cases hd : isDeprecatedDec d <;> simp [fdGo, List.takeWhile_cons, hd, ih]

theorem length_takeWhile_le_of_get {α : Type} (p : α → Bool) :
    ∀ (l : List α) (i : Nat) (h : i < l.length), p (l.get ⟨i, h⟩) = false →
      (l.takeWhile p).length ≤ i := by
  intro l
  induction l with
  | nil => intro i h; simp at h
  | cons a l ih =>
    intro i h hp
    cases hpa : p a with
    | false => simp [List.takeWhile_cons, hpa]
    | true =>
      cases i with
      | zero => simp at hp; rw [hpa] at hp; exact absurd hp (by simp)
      | succ j =>
        have hj := ih j (by simpa using h) (by simpa using hp)
        simp [List.takeWhile_cons, hpa]
        omega

/-! ## Claim theorems -/

/-- Claim C3 (code bug): `BaseElement.__init__` is documented to raise
`RuntimeError` when the loader information is missing, but the source
only *constructs* the `RuntimeError` values (lines 72, 77, 80) without
`raise`, so the constructor never raises: every execution returns
normally, and in the missing-information configurations the `_loader`
attribute is left unset.  The second conjunct evaluates the failing
input: filename `nav.html`, no template lookup, no explicit loader. -/
theorem c3_base_element_init_never_raises :
    (∀ (L : Type) (filename : String) (template_lookup : Option (String → Template L))
        (loader : Option L),
      (BaseElement.init L filename template_lookup loader).raisedMessage = none) ∧
    BaseElement.init Unit "nav.html" none none = ⟨none, none⟩ := by
  constructor
  · intro L filename tl loader
    cases loader with
    | some l => rfl
    | none =>
      simp only [BaseElement.init]
      split
      · cases tl with
        | some g => cases hr : (g filename).renderable <;> simp [hr]
        | none => rfl
      · rfl
  · rfl

/-- Claim C6: whenever the name list, after the visibility filter,
is empty, `assembleList` returns `None`; it never returns an
empty-but-present node. -/
theorem c6_assembleList_empty_filtered_none (sys : System) (label : String)
    (lst : List String) (idbase page_url : String)
    (h : lst.filter (keepName sys) = []) :
    assembleList sys label lst idbase page_url = none := by
  simp [assembleList, h]

/-- Witness for C6: the single name `x` is registered but invisible,
so the filtered list is empty and the result is absent. -/
theorem c6_witness :
    ["x"].filter (keepName sysInvisX) = [] ∧
    assembleList sysInvisX "Known subclasses: " ["x"] "moreSubclasses" "p.html" = none :=
  ⟨by decide,
   c6_assembleList_empty_filtered_none sysInvisX "Known subclasses: " ["x"]
     "moreSubclasses" "p.html" (by decide)⟩

/-- Claim C7: for a non-empty filtered name list, `assembleList`
produces the label followed by the items in their original order with
exactly one comma separator between consecutive items and none
trailing — i.e. the items interspersed with separators (`n - 1`
separators for `n` items). -/
theorem c7_assembleList_separators (sys : System) (label : String)
    (lst : List String) (idbase page_url : String)
    (h : lst.filter (keepName sys) ≠ []) :
    assembleList sys label lst idbase page_url =
      some (Node.text label :: List.intersperse (Node.text ", ")
        ((lst.filter (keepName sys)).map (one sys page_url))) := by
  unfold assembleList
  rw [if_neg (by simpa [List.isEmpty_iff] using h), commasep_eq_intersperse]

/-- Witness for C7: names `x`, `y`, `z`, all registered and visible:
the output is the label, then `x`, `y`, `z` in order with exactly two
separators. -/
theorem c7_witness :
    ["x", "y", "z"].filter (keepName sysXYZ) ≠ [] ∧
    assembleList sysXYZ "L" ["x", "y", "z"] "id" "u" =
      some (Node.text "L" :: List.intersperse (Node.text ", ")
        ((["x", "y", "z"].filter (keepName sysXYZ)).map (one sysXYZ "u"))) :=
  ⟨by decide, c7_assembleList_separators sysXYZ "L" ["x", "y", "z"] "id" "u" (by decide)⟩

/-- Claim C9: the `idbase` argument of `assembleList` has no effect on
the result — the parameter is accepted (line 338) and never read by the
body (lines 339-361), so any two runs differing only in `idbase` return
identical output. -/
theorem c9_idbase_no_effect (sys : System) (label : String) (lst : List String)
    (page_url idbase1 idbase2 : String) :
    assembleList sys label lst idbase1 page_url =
      assembleList sys label lst idbase2 page_url := rfl

/-- Claim C10: when position `i` of the decorator list holds a call
decorator resolving to `twisted.python.deprecate.deprecated` or
`.deprecatedProperty`, `format_decorators` yields exactly the
decorators of the longest deprecation-free prefix — whose length is at
most `i` — so the deprecated decorator and everything after it are
omitted. -/
theorem c10_format_decorators_truncates (decs : List Dec) (i : Nat)
    (h : i < decs.length) (hdep : isDeprecatedDec (decs.get ⟨i, h⟩) = true) :
    format_decorators ⟨some decs⟩ =
      (decs.takeWhile (fun d => !isDeprecatedDec d)).map (fun d => "@" ++ d.sourceText) ∧
    (decs.takeWhile (fun d => !isDeprecatedDec d)).length ≤ i := by
  constructor
  · simpa [format_decorators] using fdGo_eq_takeWhile decs
  · exact length_takeWhile_le_of_get _ decs i h (by simpa using hdep)

/-- Witness for C10: `[@foo, @deprecated(a), @bar]` with the
deprecation call at index 1 formats to `[@foo]` only. -/
theorem c10_witness :
    isDeprecatedDec (decsW.get ⟨1, by decide⟩) = true ∧
    (format_decorators ⟨some decsW⟩ =
      (decsW.takeWhile (fun d => !isDeprecatedDec d)).map (fun d => "@" ++ d.sourceText) ∧
    (decsW.takeWhile (fun d => !isDeprecatedDec d)).length ≤ 1) :=
  ⟨by decide, c10_format_decorators_truncates decsW 1 (by decide) (by decide)⟩

theorem nbAux_of_allNone (self : Cls) :
    ∀ rest : List (Option Cls), allNone rest = true → nbAux self rest = [] := by
  intro rest
  induction rest with
  | nil => intro _; rfl
  | cons o rest ih =>
    cases o with
    | none =>
      intro h
      simp only [nbAux]
      exact ih (by simpa [allNone] using h)
    | some b => intro h; simp [allNone] at h

theorem chainSuffixes_snoc (L : List Cls) (c : Cls) :
    chainSuffixes (L ++ [c]) = [c] :: (chainSuffixes L).map (fun l => l ++ [c]) := by
  unfold chainSuffixes
  rw [List.length_append, List.length_singleton, List.range_succ_eq_map, List.map_cons]
  congr 1
  · have h0 : L.length + 1 - 1 - 0 = L.length := by omega
    rw [h0, List.drop_left]
  · rw [List.map_map, List.map_map]
    apply List.map_congr_left
    intro i hi
    have hi' : i < L.length := List.mem_range.mp hi
    simp only [Function.comp_apply]
    have h1 : L.length + 1 - 1 - (i + 1) = L.length - 1 - i := by omega
    rw [h1, List.drop_append_of_le_length (by omega)]

theorem nbAux_linear (N : Nat)
    (ihN : ∀ c : Cls, sizeOf c ≤ N → linearB c = true →
      nested_bases c = chainSuffixes (linearChain c))
    (self : Cls) :
    ∀ bos : List (Option Cls), (∀ b, some b ∈ bos → sizeOf b ≤ N) →
      linearBAux bos = true →
      [self] :: nbAux self bos = chainSuffixes (linearChainAux self bos) := by
  intro bos
  induction bos with
  | nil =>
    intro _ _
    simp [nbAux, linearChainAux, chainSuffixes]
  | cons o rest ih =>
    cases o with
    | none =>
      intro hsz hlin
      simp only [nbAux, linearChainAux]
      exact ih (fun b hb => hsz b (List.mem_cons_of_mem _ hb))
        (by simpa [linearBAux] using hlin)
    | some b =>
      intro hsz hlin
      have hb : sizeOf b ≤ N := hsz b (List.mem_cons_self _ _)
      have hpair : allNone rest = true ∧ linearB b = true := by
        simpa [linearBAux, Bool.and_eq_true] using hlin
      simp only [nbAux, linearChainAux]
      rw [nbAux_of_allNone self rest hpair.1, List.append_nil,
        ihN b hb hpair.2, chainSuffixes_snoc]

theorem nested_bases_linear_aux :
    ∀ (N : Nat) (c : Cls), sizeOf c ≤ N → linearB c = true →
      nested_bases c = chainSuffixes (linearChain c) := by
  intro N
  induction N with
  | zero =>
    intro c hc
    cases c with
    | mk n cts bos => simp [Cls.mk.sizeOf_spec] at hc
  | succ N ihN =>
    intro c hc hlin
    cases c with
    | mk n cts bos =>
      have hsz : ∀ b, some b ∈ bos → sizeOf b ≤ N := by
        intro b hb
        have h1 := List.sizeOf_lt_of_mem hb
        have h2 : sizeOf (Cls.mk n cts bos) = 1 + sizeOf n + sizeOf cts + sizeOf bos := by
          simp [Cls.mk.sizeOf_spec]
        have h3 : sizeOf (some b) = 1 + sizeOf b := by simp
        omega
      have hmain := nbAux_linear N ihN (Cls.mk n cts bos) bos hsz
        (by simpa [linearB] using hlin)
      simpa [nested_bases, linearChain] using hmain

/-- Counterexample to claim C1 as stated: class `B` has the single
resolvable base `A` (no multiple inheritance anywhere in its ancestry),
yet `nested_bases` returns two chains, `(B,)` and `(A, B)`, not exactly
one. -/
theorem c1_counterexample :
    linearB uB = true ∧
    (nested_bases uB).map (List.map Cls.name) = [["B"], ["A", "B"]] ∧
    (nested_bases uB).length ≠ 1 :=
  ⟨rfl, rfl, by decide⟩

/-- Claim C1, amended: for a class with no multiple inheritance (each
class in its ancestry has at most one resolvable base), `nested_bases`
returns one chain per class of the linear ancestry (the class itself
included), shortest first: the nonempty suffixes of the linear ancestor
sequence.  Every chain ends at the class, and the last chain is the
full linear ancestor sequence from the root-most ancestor down to the
class itself. -/
theorem c1_nested_bases_linear (c : Cls) (h : linearB c = true) :
    nested_bases c = chainSuffixes (linearChain c) :=
  nested_bases_linear_aux (sizeOf c) c (Nat.le_refl _) h

/-- Witness for C1 (amended) at the concrete linear class `B(A)`. -/
theorem c1_witness :
    linearB uB = true ∧ nested_bases uB = chainSuffixes (linearChain uB) :=
  ⟨rfl, c1_nested_bases_linear uB rfl⟩

/-- Counterexample to claim C2 as stated: for the diamond `D(B, C)`,
`B(A)`, `C(A)`, the chains produced for `D` are not exactly
`(A, B, D)` and `(A, C, D)`: `nested_bases` also returns `(D,)`,
`(B, D)` and `(C, D)` — five chains in total. -/
theorem c2_counterexample :
    (nested_bases uD).map (List.map Cls.name) =
      [["D"], ["B", "D"], ["A", "B", "D"], ["C", "D"], ["A", "C", "D"]] ∧
    nested_bases uD ≠ [[uA, uB, uD], [uA, uC, uD]] :=
  ⟨by decide, fun h => absurd (congrArg List.length h) (by decide)⟩

/-- Claim C2, amended: for the diamond `D(B, C)`, `B(A)`, `C(A)`, the
chains produced for `D` are `(D,)`, `(B, D)`, `(A, B, D)`, `(C, D)`
and `(A, C, D)` — including the two root-to-class chains the claim
names — and the member `m`, declared on `A` and overridden only on
`B`, is in the unmasked member list of the chain `(A, C, D)` but
absent from that of `(A, B, D)`: the shadowing set is computed
independently per chain from the chain elements after the root. -/
theorem c2_diamond_chains_and_masking :
    nested_bases uD = [[uD], [uB, uD], [uA, uB, uD], [uC, uD], [uA, uC, uD]] ∧
    unmasked_attrs [uA, uC, uD] = [memAm] ∧
    unmasked_attrs [uA, uB, uD] = [] :=
  ⟨rfl, rfl, rfl⟩

theorem functionExtras_snd (ob : ClassOb) (count : Nat) (dataName : String) :
    (functionExtras ob count dataName).2 =
      if (overriding_subclasses ob.down dataName true).isEmpty then (none, count)
      else (some ("overridenIn" ++ toString (count + 1)), count + 1) := by
  simp only [functionExtras, sortedBy_isEmpty]
  cases hocs : (overriding_subclasses ob.down dataName true).isEmpty with
  | true => simp [hocs]
  | false =>
    cases hasm : assembleList ob.system "overridden in "
        ((sortedBy subLe (overriding_subclasses ob.down dataName true)).map SubC.fullName)
        ("overridenIn" ++ toString (count + 1)) ob.page_url with
    | none => simp [hocs, hasm]
    | some l => simp [hocs, hasm]

theorem runFunctionExtras_idbases (ob : ClassOb) :
    ∀ (ds : List String) (count : Nat),
      (runFunctionExtras ob ds count).filterMap (fun p => p.2) =
        (List.range (ds.countP
            (fun d => !(overriding_subclasses ob.down d true).isEmpty))).map
          (fun j => "overridenIn" ++ toString (count + j + 1)) := by
  intro ds
  induction ds with
  | nil => intro count; rfl
  | cons d ds ih =>
    intro count
    simp only [runFunctionExtras]
    have hsnd := functionExtras_snd ob count d
    rcases hfe : functionExtras ob count d with ⟨r, idb, count'⟩
    rw [hfe] at hsnd
    cases hocs : (overriding_subclasses ob.down d true).isEmpty with
    | true =>
      rw [hocs, if_pos rfl] at hsnd
      obtain ⟨hidb, hcount⟩ := Prod.mk.injEq .. ▸ hsnd
      subst hidb hcount
      simp [List.filterMap_cons, ih, List.countP_cons, hocs]
    | false =>
      rw [hocs, if_neg (by simp)] at hsnd
      obtain ⟨hidb, hcount⟩ := Prod.mk.injEq .. ▸ hsnd
      subst hidb hcount
      simp only [List.filterMap_cons, List.countP_cons, hocs, Bool.not_false,
        if_true, ih]
      rw [List.range_succ_eq_map, List.map_cons, List.map_map]
      congr 1
      apply List.map_congr_left
      intro j hj
      simp only [Function.comp_apply]
      congr 2
      omega

/-- Counterexample to claim C4 as stated: the anchor id bases are
spelled `overridenIn` (line 472), not `overriddenIn`: on the page of
`Base` (whose member `m` is overridden by the visible subclass
`Derived`) the assigned id base is `overridenIn1`, so the id list is
not `[overriddenIn1]` as the claim requires. -/
theorem c4_counterexample :
    classPageIdbases obBasePage ["m"] = ["overridenIn1"] ∧
    classPageIdbases obBasePage ["m"] ≠ ["overriddenIn1"] :=
  ⟨rfl, by decide⟩

/-- Claim C4, amended: during one `ClassPage` render, each member
whose `overridden in` list is non-empty is assigned an anchor id base
`overridenIn` (sic, as the source spells it) followed by a counter
value, in encounter order starting at 1.  The counter is the instance
attribute `overridenInCount`, initialised to 0 in `ClassPage.__init__`
(line 376), so a render of a different class — a separate `ClassPage`
construction, here any other `(ob, memberNames)` instantiation of the
same equation — starts again at 1: no leakage across page renders. -/
theorem c4_overridenIn_counter (ob : ClassOb) (memberNames : List String) :
    classPageIdbases ob memberNames =
      (List.range (memberNames.countP
          (fun d => !(overriding_subclasses ob.down d true).isEmpty))).map
        (fun j => "overridenIn" ++ toString (j + 1)) := by
  have h := runFunctionExtras_idbases ob memberNames 0
  simpa [classPageIdbases, classPageExtras] using h

theorem os_true_eq (c : SubC) (name : String) :
    overriding_subclasses c name true = osAux name c.subclasses := by
  cases c with
  | mk fn ms v subs => simp [overriding_subclasses, SubC.subclasses]

theorem os_false_eq (c : SubC) (name : String) :
    overriding_subclasses c name false =
      if c.memberNames.contains name then [c] else osAux name c.subclasses := by
  cases c with
  | mk fn ms v subs => simp [overriding_subclasses, SubC.memberNames, SubC.subclasses]

theorem mem_osAux (name : String) (d : SubC) :
    ∀ l : List SubC, d ∈ osAux name l ↔
      ∃ sc, sc ∈ l ∧ sc.isVisible = true ∧ d ∈ overriding_subclasses sc name false := by
  intro l
  induction l with
  | nil => simp [osAux]
  | cons sc rest ih =>
    simp only [osAux, List.mem_append, ih]
    cases hv : sc.isVisible with
    | true =>
      simp only [if_pos rfl]
      constructor
      · rintro (hd | ⟨sc', h1, h2, h3⟩)
        · exact ⟨sc, List.mem_cons_self _ _, hv, hd⟩
        · exact ⟨sc', List.mem_cons_of_mem _ h1, h2, h3⟩
      · rintro ⟨sc', h1, h2, h3⟩
        rcases List.mem_cons.mp h1 with rfl | h1'
        · exact Or.inl h3
        · exact Or.inr ⟨sc', h1', h2, h3⟩
    | false =>
      simp only [Bool.false_eq_true, if_false, List.not_mem_nil, false_or]
      constructor
      · rintro ⟨sc', h1, h2, h3⟩
        exact ⟨sc', List.mem_cons_of_mem _ h1, h2, h3⟩
      · rintro ⟨sc', h1, h2, h3⟩
        rcases List.mem_cons.mp h1 with rfl | h1'
        · rw [hv] at h2; exact absurd h2 (by simp)
        · exact ⟨sc', h1', h2, h3⟩

theorem yieldsFrom_of_mem :
    ∀ (N : Nat) (c : SubC), sizeOf c ≤ N → ∀ (name : String) (d : SubC),
      d ∈ overriding_subclasses c name true → YieldsFrom name c d := by
  intro N
  induction N with
  | zero =>
    intro c hc
    cases c with
    | mk fn ms v subs => simp [SubC.mk.sizeOf_spec] at hc
  | succ N ihN =>
    intro c hc name d hd
    rw [os_true_eq, mem_osAux] at hd
    obtain ⟨sc, hmem, hvis, hd⟩ := hd
    rw [os_false_eq] at hd
    by_cases hms : sc.memberNames.contains name = true
    · rw [if_pos hms] at hd
      rcases List.mem_singleton.mp hd with rfl
      exact YieldsFrom.found c d hmem hvis (by simpa using hms)
    · rw [if_neg hms] at hd
      have hd' : d ∈ overriding_subclasses sc name true := by
        rw [os_true_eq]; exact hd
      have hsize : sizeOf sc ≤ N := by
        cases c with
        | mk fn ms v subs =>
          have hmem' : sc ∈ subs := by simpa [SubC.subclasses] using hmem
          have h1 := List.sizeOf_lt_of_mem hmem'
          have h2 : sizeOf (SubC.mk fn ms v subs) =
              1 + sizeOf fn + sizeOf ms + sizeOf v + sizeOf subs := by
            simp [SubC.mk.sizeOf_spec]
          omega
      exact YieldsFrom.step c sc d hmem hvis (fun hmem2 => hms (by simpa using hmem2))
        (ihN sc hsize name d hd')

theorem mem_of_yieldsFrom (name : String) (c d : SubC) :
    YieldsFrom name c d → d ∈ overriding_subclasses c name true := by
  intro h
  induction h with
  | found c d hmem hvis hnm =>
    rw [os_true_eq, mem_osAux]
    refine ⟨d, hmem, hvis, ?_⟩
    rw [os_false_eq, if_pos (by simpa using hnm)]
    exact List.mem_singleton_self _
  | step c sc d hmem hvis hnm hyf ih =>
    rw [os_true_eq, mem_osAux]
    refine ⟨sc, hmem, hvis, ?_⟩
    rw [os_false_eq, if_neg (by simpa using hnm)]
    rw [os_true_eq] at ih
    exact ih

theorem overridesOf_first (name : String) :
    ∀ bs : List Cls, overridesOf name bs =
      (bs.find? (fun b => (findMember b name).isSome)).bind
        (fun b => findMember b name) := by
  intro bs
  induction bs with
  | nil => rfl
  | cons b rest ih =>
    simp only [overridesOf]
    cases hm : findMember b name with
    | some m =>
      rw [List.find?_cons_of_pos _ (by simp [hm])]
      simp [hm]
    | none =>
      rw [List.find?_cons_of_neg _ (by simp [hm])]
      exact ih

/-- Counterexample to claim C5 as stated: in the hierarchy
`Base` <- `Derived` <- `Derived2`, all visible and all declaring `m`,
`Derived2` is a visible descendant of `Base` overriding `m`, yet the
`overridden in` list computed for `Base` contains only `Derived`:
`overriding_subclasses` never descends past the first overriding
subclass on a path, so the annotation does not list every visible
overriding descendant at any depth. -/
theorem c5_counterexample :
    dDerived2.isVisible = true ∧
    "m" ∈ dDerived2.memberNames ∧
    dDerived2 ∈ dDerived.subclasses ∧
    dDerived ∈ dBase.subclasses ∧
    (overriding_subclasses dBase "m" true).map SubC.fullName = ["Derived"] ∧
    (functionExtras obBaseDeepPage 0 "m").1 =
      [Extra.overriddenInDiv [Node.text "overridden in ", Node.text "Derived"]] ∧
    "Derived2" ∉ (overriding_subclasses dBase "m" true).map SubC.fullName := by
  refine ⟨rfl, by decide, ?_, ?_, by decide, rfl, by decide⟩
  · rw [show dDerived.subclasses = [dDerived2] from rfl]
    exact List.mem_singleton_self _
  · rw [show dBase.subclasses = [dDerived] from rfl]
    exact List.mem_singleton_self _

/-- Claim C5, amended: on a class page, (i) a member also present in
some ancestor gets an `overrides` annotation naming the member found in
the *first* matching ancestor of the most-derived-first traversal
(`overridesOf` is the find-first-then-stop loop of lines 462-468);
(ii) the `overridden in` annotation lists exactly the descendants
characterised by `YieldsFrom`: visible subclasses reachable through
chains of visible subclasses that do not themselves declare the member,
stopping at the first overrider of each path — not every visible
overriding descendant at any depth; (iii) end-to-end, for `Base` with
method `m` and `Derived(Base)` also defining `m`, the page of `Base`
shows `overridden in Derived` and the page of `Derived` shows
`overrides Base.m`. -/
theorem c5_overrides_and_overridden_in :
    (∀ (name : String) (bs : List Cls),
      overridesOf name bs =
        (bs.find? (fun b => (findMember b name).isSome)).bind
          (fun b => findMember b name)) ∧
    (∀ (name : String) (c d : SubC),
      d ∈ overriding_subclasses c name true ↔ YieldsFrom name c d) ∧
    (functionExtras obBasePage 0 "m").1 =
      [Extra.overriddenInDiv [Node.text "overridden in ", Node.text "Derived"]] ∧
    (functionExtras obDerivedPage 0 "m").1 =
      [Extra.overridesLink "Base.m" "Derived.html"] := by
  refine ⟨overridesOf_first, ?_, rfl, rfl⟩
  intro name c d
  exact ⟨yieldsFrom_of_mem (sizeOf c) c (Nat.le_refl _) name d,
    mem_of_yieldsFrom name c d⟩

/-- Claim C8: a package page's children list never contains the entry
named `__init__`, and a visible member of the `__init__` module appears
in the dedicated init table (behind its explanatory label) and — given
the object-model tree invariant that an entity has a single owner, so a
member of `__init__` is not also an element of the package's own
contents — never in the main children table. -/
theorem c8_package_init_separation (ob init m : PEntity)
    (hinit : ob.contents.find? (fun o => o.name == "__init__") = some init)
    (hm : m ∈ init.contents) (hv : m.isVisible = true)
    (hdisj : m ∉ ob.contents) :
    (∀ e ∈ PackagePage.children ob, e.name ≠ "__init__") ∧
    (∃ members, PackagePage.packageInitTable ob =
        some ("From the __init__.py module:", members) ∧ m ∈ members) ∧
    m ∉ PackagePage.children ob := by
  refine ⟨?_, ?_, ?_⟩
  · intro e he
    have he' : e ∈ ob.contents.filter (fun o => (o.name != "__init__") && o.isVisible) :=
      (mem_sortedBy pkgLe e _).mp he
    have hcond := (List.mem_filter.mp he').2
    have hbne : (e.name != "__init__") = true := ((Bool.and_eq_true _ _).mp hcond).1
    simpa using hbne
  · have hmm : m ∈ sortedBy pkgLe (init.contents.filter (fun o => o.isVisible)) :=
      (mem_sortedBy pkgLe m _).mpr (List.mem_filter.mpr ⟨hm, hv⟩)
    have hne : ¬ ((sortedBy pkgLe (init.contents.filter (fun o => o.isVisible))).isEmpty = true) := by
      intro h
      rw [List.isEmpty_iff] at h
      rw [h] at hmm
      exact List.not_mem_nil m hmm
    refine ⟨sortedBy pkgLe (init.contents.filter (fun o => o.isVisible)), ?_, hmm⟩
    unfold PackagePage.packageInitTable
    rw [hinit]
    show (if (sortedBy pkgLe (init.contents.filter (fun o => o.isVisible))).isEmpty = true
        then none
        else some ("From the __init__.py module:",
          sortedBy pkgLe (init.contents.filter (fun o => o.isVisible)))) =
      some ("From the __init__.py module:",
        sortedBy pkgLe (init.contents.filter (fun o => o.isVisible)))
    rw [if_neg hne]
  · intro hmem
    have h' := (mem_sortedBy pkgLe m _).mp hmem
    exact hdisj (List.mem_filter.mp h').1

/-- Witness for C8 at a concrete package `pkg` containing `__init__`
(with one visible member `x`) and a module `a`. -/
theorem c8_witness :
    (∀ e ∈ PackagePage.children pkgOb, e.name ≠ "__init__") ∧
    (∃ members, PackagePage.packageInitTable pkgOb =
        some ("From the __init__.py module:", members) ∧ pkgInitMember ∈ members) ∧
    pkgInitMember ∉ PackagePage.children pkgOb :=
  c8_package_init_separation pkgOb pkgInit pkgInitMember rfl
    (by rw [show pkgInit.contents = [pkgInitMember] from rfl]
        exact List.mem_singleton_self _)
    rfl
    (by intro hcon
        rw [show pkgOb.contents = [pkgInit, pkgModA] from rfl] at hcon
        rcases List.mem_cons.mp hcon with h1 | h2
        · exact absurd (congrArg PEntity.name h1) (by decide)
        · rcases List.mem_cons.mp h2 with h3 | h4
          · exact absurd (congrArg PEntity.name h3) (by decide)
          · exact List.not_mem_nil _ h4)

end Pydoctor

